import Mathlib

/-!
# Verification of `SuffixModification/rename_files.py`

A shallow embedding of the batch file-renaming utility: it walks a directory
tree, collects files whose name ends with `.adoc.docx`, and either previews or
executes a rename of each such file obtained by replacing the substring
`.adoc.docx` with `.docx` in the filename component.

Paths are modelled as lists of characters (POSIX separator `/`).  The
filesystem seen by `os.walk` is modelled as a tree of entries; the possibility
that the walk raises an exception mid-iteration is modelled by a `WalkResult`
carrying the pairs yielded before an optional error.  Log output is modelled
structurally: each `logger.info` / `logger.error` call becomes a constructor of
`LogMsg` carrying the data interpolated into the message.
-/

namespace RenameFiles

/-- A path or path fragment: a string, modelled as a list of characters. -/
abbrev Path := List Char

/-- The literal `'.adoc.docx'` from the script. -/
def ADOC_DOCX : Path := ['.', 'a', 'd', 'o', 'c', '.', 'd', 'o', 'c', 'x']

/-- The literal `'.docx'` from the script. -/
def DOCX : Path := ['.', 'd', 'o', 'c', 'x']

/-- The fragment `'.adoc'` (the part the transform is meant to drop). -/
def ADOC : Path := ['.', 'a', 'd', 'o', 'c']

/-! ## `os.path` primitives (POSIX semantics)

`os.path.basename p` is `p[i+1:]` and the raw head of `os.path.split` is
`p[:i+1]`, where `i` is the index of the last `/` in `p`; `os.path.dirname`
additionally strips trailing slashes from the head unless the head consists
only of slashes.  `os.path.join a b` (for the two-argument calls the script
makes) returns `b` if `b` starts with `/`, `a ++ b` if `a` is empty or ends
with `/`, and `a ++ "/" ++ b` otherwise. -/

/-- Python's `os.path.basename`: everything after the last `/` (the whole string if
there is no `/`). -/
def basename (p : Path) : Path :=
  (p.reverse.takeWhile (fun c => c != '/')).reverse

/-- The raw head `p[:i+1]` of `os.path.split p`: everything up to and
including the last `/` (empty if there is no `/`). -/
def splitHead (p : Path) : Path :=
  (p.reverse.dropWhile (fun c => c != '/')).reverse

/-- Strip trailing slashes (Python's `head.rstrip('/')`). -/
def rstripSlash (p : Path) : Path :=
  (p.reverse.dropWhile (fun c => c == '/')).reverse

/-- Python's `os.path.dirname`: the split head, with trailing slashes stripped unless
the head is empty or consists only of slashes (Python's
`if head and head != '/'*len(head): head = head.rstrip('/')`; for a nonempty
head, `head.any (· != '/')` is exactly `head != '/'*len(head)`, and it is
`false` for the empty head). -/
def dirname (p : Path) : Path :=
  if (splitHead p).any (fun c => c != '/') then rstripSlash (splitHead p)
  else splitHead p

/-- Python's `os.path.join a b` for a relative-or-absolute second component. -/
def joinPath (a b : Path) : Path :=
  if b.head? = some '/' then b
  else if a = [] ∨ a.getLast? = some '/' then a ++ b
  else a ++ '/' :: b

/-! ## Python `str.replace`

`s.replace(old, new)` scans `s` left to right and replaces every
(leftmost, non-overlapping) occurrence of `old` by `new`.  The recursion
consumes at least one character of the scanned string per step as long as the
pattern is nonempty, so the length of the string is enough fuel. -/

/-- Left-to-right replacement of every non-overlapping occurrence of `pat` by
`rep`, with explicit fuel (structural recursion on the fuel). -/
def replaceGo (pat rep : Path) : Nat → Path → Path
  | _, [] => []
  | 0, s => s
  | fuel + 1, c :: rest =>
    if pat.isPrefixOf (c :: rest) then
      rep ++ replaceGo pat rep fuel ((c :: rest).drop pat.length)
    else
      c :: replaceGo pat rep fuel rest

/-- Python's `s.replace(pat, rep)` (for nonempty `pat`). -/
def pyReplace (s pat rep : Path) : Path :=
  replaceGo pat rep s.length s

/-- Replacement of only the *first* occurrence of `pat` by `rep`.
Modelled from the spec: the spec's §4.2 wording "it replaces the first/only
occurrence of the literal substring within the filename" describes this
function; it is stated here so that it can be compared with the behaviour of
the source, whose `str.replace` call replaces every occurrence. -/
def replaceFirst (pat rep : Path) : Path → Path
  | [] => []
  | c :: rest =>
    if pat.isPrefixOf (c :: rest) then rep ++ (c :: rest).drop pat.length
    else c :: replaceFirst pat rep rest

/-! ## The script's functions -/

/-- The filter applied to each filename during the walk:
`file.endswith('.adoc.docx')`. -/
def isCandidateName (file : Path) : Bool :=
  ADOC_DOCX.isSuffixOf file

/-- The script's `generate_new_filename`: split the path into directory and filename,
replace `.adoc.docx` by `.docx` in the filename (Python `str.replace`,
i.e. every occurrence), and re-join. -/
def generate_new_filename (old_filepath : Path) : Path :=
  let directory := dirname old_filepath
  let old_filename := basename old_filepath
  let new_filename := pyReplace old_filename ADOC_DOCX DOCX
  joinPath directory new_filename

/-! ## The filesystem tree seen by `os.walk`

A directory's contents are a finite sequence of entries, each a regular file
(with a name) or a subdirectory (with a name and its own contents).  The two
types are mutually inductive so that all functions over them are structurally
recursive. -/

mutual
/-- One directory entry: a regular file or a subdirectory. -/
inductive FSEntry : Type where
  | file : Path → FSEntry
  | dir : Path → FSDir → FSEntry
/-- The contents of a directory: a finite sequence of entries. -/
inductive FSDir : Type where
  | nil : FSDir
  | cons : FSEntry → FSDir → FSDir
end

/-- The entries of a directory, as a list. -/
def FSDir.entries : FSDir → List FSEntry
  | .nil => []
  | .cons e es => e :: es.entries

/-- The names of the regular files directly inside a directory (`os.walk`'s
`files` component for that directory, in listing order). -/
def FSDir.fileNames : FSDir → List Path
  | .nil => []
  | .cons (.file n) es => n :: es.fileNames
  | .cons (.dir _ _) es => es.fileNames

mutual
/-- The `(dirpath, filenames)` pairs contributed by one entry of a top-down
`os.walk`: nothing for a regular file, the subdirectory's whole walk for a
subdirectory. -/
def walkEntryPairs (root : Path) : FSEntry → List (Path × List Path)
  | .file _ => []
  | .dir d cs =>
    (joinPath root d, cs.fileNames) :: walkSubPairs (joinPath root d) cs
/-- The `(dirpath, filenames)` pairs of the subdirectories of a directory, in
listing order. -/
def walkSubPairs (root : Path) : FSDir → List (Path × List Path)
  | .nil => []
  | .cons e es => walkEntryPairs root e ++ walkSubPairs root es
end

/-- The full sequence of `(dirpath, filenames)` pairs yielded by a top-down
`os.walk(root)` over contents `es`: the root's own pair first, then each
subdirectory's walk in listing order. -/
def walkPairs (root : Path) (es : FSDir) : List (Path × List Path) :=
  (root, es.fileNames) :: walkSubPairs root es

/-- What one evaluation of `os.walk` delivers to `traverse_directory`: the
pairs it yields, and (optionally) the message of an exception raised after
those pairs were yielded.  An error-free walk over a tree is
`⟨walkPairs root es, none⟩`. -/
structure WalkResult where
  yielded : List (Path × List Path)
  error : Option Path
deriving DecidableEq

/-- An error-free walk of the tree `es` rooted at `root`. -/
def walkOf (root : Path) (es : FSDir) : WalkResult :=
  ⟨walkPairs root es, none⟩

/-! ## Log output

Each `logger.info` / `logger.error` call in the script becomes one
constructor, carrying the data interpolated into the message. -/

/-- One log line emitted by the script. -/
inductive LogMsg : Type where
  /-- Log line `目录不存在: {directory}` (error) -/
  | errNoExist : Path → LogMsg
  /-- Log line `路径不是目录: {directory}` (error) -/
  | errNotDir : Path → LogMsg
  /-- Log line `遍历目录时出错: {e}` (error) -/
  | traverseError : Path → LogMsg
  /-- Log line `开始处理目录: {directory}` -/
  | startDir : Path → LogMsg
  /-- Log line `开始时间: ...` -/
  | startTime : LogMsg
  /-- Log line `未找到需要修改的文件` -/
  | noFilesFound : LogMsg
  /-- Log line `=== 预览模式 ===` -/
  | previewHeader : LogMsg
  /-- Log line `找到 {n} 个需要修改的文件:` -/
  | previewCount : Nat → LogMsg
  /-- Log line `将修改: {old} -> {new}` -/
  | previewLine : Path → Path → LogMsg
  /-- Log line `=== 预览完成 ===` -/
  | previewDone : LogMsg
  /-- Log line `=== 执行模式 ===` -/
  | execHeader : LogMsg
  /-- Log line `成功修改: {old} -> {new}` -/
  | renameOk : Path → Path → LogMsg
  /-- Log line `修改失败 {old}: {e}` (error) -/
  | renameFail : Path → Path → LogMsg
  /-- Log line `=== 执行完成 ===` -/
  | execDone : LogMsg
  /-- Log line `成功修改: {n} 个文件` -/
  | execSuccessCount : Nat → LogMsg
  /-- Log line `修改失败: {n} 个文件` -/
  | execFailCount : Nat → LogMsg
  /-- Log line `结束时间: ...` -/
  | endTime : LogMsg
deriving DecidableEq

/-! ## `traverse_directory` -/

/-- The body of `traverse_directory`'s loop over the walk's pairs: for each
yielded `(root, files)` pair, append `os.path.join(root, file)` for every
`file` in `files` with `file.endswith('.adoc.docx')`. -/
def traverse_loop : List (Path × List Path) → List Path
  | [] => []
  | (root, files) :: rest =>
    files.filterMap
      (fun file =>
        if isCandidateName file then some (joinPath root file) else none)
      ++ traverse_loop rest

/-- The script's `traverse_directory`: iterate the walk inside a `try`; if the walk raised
an exception, the partially accumulated list is discarded, the error is
logged, and the empty list is returned.  Returns the candidate list and the
log lines emitted. -/
def traverse_directory (w : WalkResult) : List Path × List LogMsg :=
  match w.error with
  | some e => ([], [.traverseError e])
  | none => (traverse_loop w.yielded, [])

/-! ## `preview_rename`

The process's filesystem state is modelled as the list of existing file
paths; it is threaded through the reporters so that (non-)mutation is
expressible.  `preview_rename` performs no filesystem operation, so it
returns the state unchanged. -/

/-- The filesystem state: the paths of the files that currently exist. -/
abbrev FS := List Path

/-- The script's `preview_rename`: log a header and the candidate count, then one
`将修改: old -> new` line per candidate, then a footer.  No filesystem
operation is performed. -/
def preview_rename (fs : FS) (files_to_process : List Path) :
    FS × List LogMsg :=
  (fs,
    .previewHeader
      :: .previewCount files_to_process.length
      :: (files_to_process.map
            (fun old => .previewLine old (generate_new_filename old))
          ++ [.previewDone]))

/-! ## `execute_rename`

Whether an individual `os.rename(old, new)` call succeeds depends on the
operating system (target exists, permission denied, source vanished, ...);
it is modelled by an oracle `rename_error : old → new → Option message`
(`none` = success).  A successful rename replaces `old` by `new` in the
filesystem state. -/

/-- The effect of a successful `os.rename old new` on the filesystem state. -/
def applyRename (fs : FS) (old new : Path) : FS :=
  fs.map (fun p => if p = old then new else p)

/-- The outcome of `execute_rename`: final filesystem state, the two
counters, and the log lines emitted. -/
structure ExecResult where
  fs : FS
  success_count : Nat
  error_count : Nat
  logs : List LogMsg
deriving DecidableEq

/-- The loop of `execute_rename`: for each candidate, compute the new name
and attempt the rename inside a `try`; on success increment `success_count`
and log, on failure increment `error_count`, log the error with its cause and
path, and continue with the remaining candidates. -/
def execute_loop (rename_error : Path → Path → Option Path) (fs : FS) :
    List Path → ExecResult
  | [] => ⟨fs, 0, 0, []⟩
  | old :: rest =>
    let nw := generate_new_filename old
    match rename_error old nw with
    | none =>
      let r := execute_loop rename_error (applyRename fs old nw) rest
      ⟨r.fs, r.success_count + 1, r.error_count, .renameOk old nw :: r.logs⟩
    | some e =>
      let r := execute_loop rename_error fs rest
      ⟨r.fs, r.success_count, r.error_count + 1, .renameFail old e :: r.logs⟩

/-- The script's `execute_rename`: header, the per-candidate loop, then the summary. -/
def execute_rename (rename_error : Path → Path → Option Path) (fs : FS)
    (files_to_process : List Path) : ExecResult :=
  let r := execute_loop rename_error fs files_to_process
  ⟨r.fs, r.success_count, r.error_count,
    .execHeader
      :: (r.logs
          ++ [.execDone, .execSuccessCount r.success_count,
              .execFailCount r.error_count])⟩

/-! ## `main` -/

/-- The environment a run observes: the two `os.path` checks on the root
argument, what `os.walk` delivers, and the rename oracle. -/
structure Env where
  pathExists : Bool
  pathIsDir : Bool
  walk : WalkResult
  rename_error : Path → Path → Option Path

/-- The script's `main`: validate the root argument, traverse, and dispatch to preview or
execute mode; returns the final filesystem state and the log lines. -/
def mainRun (env : Env) (directory : Path) (preview : Bool) (fs : FS) :
    FS × List LogMsg :=
  if !env.pathExists then (fs, [.errNoExist directory])
  else if !env.pathIsDir then (fs, [.errNotDir directory])
  else
    let t := traverse_directory env.walk
    let hdr : List LogMsg := [.startDir directory, .startTime] ++ t.2
    if t.1.isEmpty then (fs, hdr ++ [.noFilesFound])
    else if preview then
      let p := preview_rename fs t.1
      (p.1, hdr ++ p.2 ++ [.endTime])
    else
      let r := execute_rename env.rename_error fs t.1
      (r.fs, hdr ++ r.logs ++ [.endTime])

/-- The shape invariant of `dirname`'s output: it never ends with `/` unless
it consists only of slashes. -/
def GoodDir (d : Path) : Prop :=
  d.getLast? ≠ some '/' ∨ ∀ c ∈ d, c = '/'

/-- Relation `IsFileUnder root es p n`: somewhere under the directory with path `root`
and contents `es` there is a regular file named `n` whose full path is `p`. -/
inductive IsFileUnder : Path → FSDir → Path → Path → Prop where
  | here {root : Path} {es : FSDir} {n : Path} :
      FSEntry.file n ∈ es.entries → IsFileUnder root es (joinPath root n) n
  | inside {root : Path} {es : FSDir} {d : Path} {cs : FSDir} {p n : Path} :
      FSEntry.dir d cs ∈ es.entries →
      IsFileUnder (joinPath root d) cs p n → IsFileUnder root es p n

/-- Is this log line a per-candidate preview line? -/
def isPreviewLine : LogMsg → Bool
  | .previewLine _ _ => true
  | _ => false

/-- Is this log line a rename attempt's outcome (success or failure)? -/
def isRenameLog : LogMsg → Bool
  | .renameOk _ _ => true
  | .renameFail _ _ => true
  | _ => false

/-- The directory contents of the spec's worked example: `a/report.adoc.docx`,
`b/notes.txt`, `c/summary.adoc.docx`. -/
def exampleDir : FSDir :=
  .cons (.dir "a".data (.cons (.file "report.adoc.docx".data) .nil))
    (.cons (.dir "b".data (.cons (.file "notes.txt".data) .nil))
      (.cons (.dir "c".data
        (.cons (.file "summary.adoc.docx".data) .nil)) .nil))

/-! ## Generic list helpers -/

theorem takeWhile_append_of_all {p : Char → Bool} :
    ∀ (l₁ l₂ : List Char), (∀ a ∈ l₁, p a = true) →
      (l₁ ++ l₂).takeWhile p = l₁ ++ l₂.takeWhile p
  | [], _, _ => rfl
  | a :: l₁, l₂, h => by
    have ha : p a = true := h a (by simp)
    have ih := takeWhile_append_of_all l₁ l₂ (fun b hb => h b (by simp [hb]))
    simp [List.takeWhile_cons, ha, ih]

theorem dropWhile_append_of_all {p : Char → Bool} :
    ∀ (l₁ l₂ : List Char), (∀ a ∈ l₁, p a = true) →
      (l₁ ++ l₂).dropWhile p = l₂.dropWhile p
  | [], _, _ => rfl
  | a :: l₁, l₂, h => by
    have ha : p a = true := h a (by simp)
    have ih := dropWhile_append_of_all l₁ l₂ (fun b hb => h b (by simp [hb]))
    simp [List.dropWhile_cons, ha, ih]

theorem takeWhile_eq_self_of_all {p : Char → Bool} {l : List Char}
    (h : ∀ a ∈ l, p a = true) : l.takeWhile p = l := by
  have := takeWhile_append_of_all (p := p) l [] h
  simpa using this

theorem dropWhile_eq_nil_of_all {p : Char → Bool} {l : List Char}
    (h : ∀ a ∈ l, p a = true) : l.dropWhile p = [] := by
  have := dropWhile_append_of_all (p := p) l [] h
  simpa using this

theorem takeWhile_eq_nil_of_head {p : Char → Bool} {l : List Char} {c : Char}
    (hc : l.head? = some c) (hp : p c = false) : l.takeWhile p = [] := by
  cases l with
  | nil => rfl
  | cons a l =>
    simp only [List.head?_cons, Option.some.injEq] at hc
    subst hc
    simp [List.takeWhile_cons, hp]

theorem dropWhile_eq_self_of_head {p : Char → Bool} {l : List Char} {c : Char}
    (hc : l.head? = some c) (hp : p c = false) : l.dropWhile p = l := by
  cases l with
  | nil => rfl
  | cons a l =>
    simp only [List.head?_cons, Option.some.injEq] at hc
    subst hc
    simp [List.dropWhile_cons, hp]

theorem dropWhile_head_false {p : Char → Bool} :
    ∀ {l : List Char} {c : Char} {t : List Char},
      l.dropWhile p = c :: t → p c = false
  | [], _, _, h => by simp at h
  | a :: l, c, t, h => by
    rw [List.dropWhile_cons] at h
    by_cases ha : p a = true
    · rw [if_pos ha] at h
      exact dropWhile_head_false h
    · rw [if_neg ha] at h
      cases h
      exact eq_false_of_ne_true ha

/-! ## Lemmas about `replaceGo` / `pyReplace` -/

theorem replaceGo_nil (pat rep : Path) (fuel : Nat) :
    replaceGo pat rep fuel [] = [] := by
  cases fuel <;> rfl

theorem replaceGo_succ_cons (pat rep : Path) (fuel : Nat) (c : Char) (s : Path) :
    replaceGo pat rep (fuel + 1) (c :: s) =
      if pat.isPrefixOf (c :: s) then
        rep ++ replaceGo pat rep fuel ((c :: s).drop pat.length)
      else c :: replaceGo pat rep fuel s := rfl

theorem replaceGo_ne_nil {pat rep : Path} (hrep : rep ≠ []) {s : Path}
    (hs : s ≠ []) (fuel : Nat) : replaceGo pat rep fuel s ≠ [] := by
  cases fuel with
  | zero =>
    cases s with
    | nil => exact absurd rfl hs
    | cons c t => simp [replaceGo]
  | succ f =>
    cases s with
    | nil => exact absurd rfl hs
    | cons c t =>
      rw [replaceGo_succ_cons]
      split
      · simp [hrep]
      · simp

theorem pyReplace_ne_nil {pat rep : Path} (hrep : rep ≠ []) {s : Path}
    (hs : s ≠ []) : pyReplace s pat rep ≠ [] :=
  replaceGo_ne_nil hrep hs s.length

theorem mem_replaceGo {pat rep : Path} :
    ∀ (fuel : Nat) (s : Path) (c : Char),
      c ∈ replaceGo pat rep fuel s → c ∈ s ∨ c ∈ rep
  | fuel, [], c => by
    rw [replaceGo_nil]
    intro h
    simp at h
  | 0, a :: s, c => fun h => Or.inl h
  | fuel + 1, a :: s, c => by
    rw [replaceGo_succ_cons]
    split
    · intro h
      rcases List.mem_append.mp h with h | h
      · exact Or.inr h
      · rcases mem_replaceGo fuel _ c h with h | h
        · exact Or.inl (List.mem_of_mem_drop h)
        · exact Or.inr h
    · intro h
      rcases List.mem_cons.mp h with h | h
      · exact Or.inl (by simp [h])
      · rcases mem_replaceGo fuel s c h with h | h
        · exact Or.inl (List.mem_cons_of_mem _ h)
        · exact Or.inr h

theorem mem_pyReplace {pat rep s : Path} {c : Char}
    (h : c ∈ pyReplace s pat rep) : c ∈ s ∨ c ∈ rep :=
  mem_replaceGo s.length s c h

/-- The pattern `.adoc.docx` has no period shorter than its length. -/
theorem adoc_docx_no_overlap :
    ∀ k < ADOC_DOCX.length, 0 < k →
      ADOC_DOCX.drop k ≠ ADOC_DOCX.take (ADOC_DOCX.length - k) := by
  decide

/-- Splitting lemma: because a pattern without a short period cannot overlap
itself, replacing in `X ++ pat` always rewrites the trailing occurrence as a
unit: the result is the replacement of the stem `X` followed by `rep`.
Stated over `replaceGo` with independent (sufficient) fuel on both sides. -/
theorem replaceGo_append_pat_split {pat rep : Path} (hpat : pat ≠ [])
    (hov : ∀ k < pat.length, 0 < k →
      pat.drop k ≠ pat.take (pat.length - k)) :
    ∀ (X : Path) (f₁ f₂ : Nat), (X ++ pat).length ≤ f₁ → X.length ≤ f₂ →
      replaceGo pat rep f₁ (X ++ pat) = replaceGo pat rep f₂ X ++ rep
  | X, f₁, f₂ => by
    intro h₁ h₂
    have hlp : 0 < pat.length := List.length_pos.mpr hpat
    cases X with
    | nil =>
      rw [List.nil_append] at h₁ ⊢
      rw [replaceGo_nil, List.nil_append]
      cases f₁ with
      | zero => exact absurd (List.length_eq_zero.mp (Nat.le_zero.mp h₁)) hpat
      | succ g₁ =>
        cases hp : pat with
        | nil => exact absurd hp hpat
        | cons p0 pr =>
          rw [replaceGo_succ_cons]
          have hpre : (p0 :: pr).isPrefixOf (p0 :: pr) = true :=
            List.isPrefixOf_iff_prefix.mpr <| List.prefix_refl _
          rw [if_pos hpre, List.drop_length, replaceGo_nil, List.append_nil]
    | cons c X' =>
      cases f₁ with
      | zero => simp at h₁
      | succ g₁ =>
        cases f₂ with
        | zero => simp at h₂
        | succ g₂ =>
          rw [List.cons_append, replaceGo_succ_cons, replaceGo_succ_cons]
          by_cases hm : pat.isPrefixOf (c :: (X' ++ pat)) = true
          · have hple : pat.length ≤ (c :: X').length := by
              by_contra hgt
              push_neg at hgt
              have hpre : pat <+: (c :: X') ++ pat := by
                rw [List.cons_append]
                exact List.isPrefixOf_iff_prefix.mp hm
              have htake : pat = ((c :: X') ++ pat).take pat.length :=
                List.prefix_iff_eq_take.mp hpre
              rw [List.take_append_eq_append_take,
                List.take_of_length_le (Nat.le_of_lt hgt)] at htake
              have hdrop : pat.drop (c :: X').length =
                  pat.take (pat.length - (c :: X').length) := by
                conv_lhs => rw [htake]
                rw [List.drop_left]
              exact hov (c :: X').length hgt (by simp) hdrop
            have hm' : pat.isPrefixOf (c :: X') = true := by
              have hpre : pat <+: (c :: X') ++ pat := by
                rw [List.cons_append]
                exact List.isPrefixOf_iff_prefix.mp hm
              have htake : pat = ((c :: X') ++ pat).take pat.length :=
                List.prefix_iff_eq_take.mp hpre
              rw [List.take_append_eq_append_take,
                Nat.sub_eq_zero_of_le hple, List.take_zero,
                List.append_nil] at htake
              exact List.isPrefixOf_iff_prefix.mpr
                ( List.prefix_iff_eq_take.mpr htake)
            rw [if_pos hm, if_pos hm']
            have hdropeq : (c :: (X' ++ pat)).drop pat.length =
                ((c :: X').drop pat.length) ++ pat := by
              rw [← List.cons_append, List.drop_append_eq_append_drop,
                Nat.sub_eq_zero_of_le hple, List.drop_zero]
            have hb1 : (((c :: X').drop pat.length) ++ pat).length ≤ g₁ := by
              simp only [List.length_append, List.length_drop,
                List.length_cons] at h₁ ⊢
              omega
            have hb2 : ((c :: X').drop pat.length).length ≤ g₂ := by
              simp only [List.length_drop, List.length_cons] at h₂ ⊢
              omega
            rw [hdropeq,
              replaceGo_append_pat_split hpat hov ((c :: X').drop pat.length)
                g₁ g₂ hb1 hb2,
              List.append_assoc]
          · have hm' : ¬ pat.isPrefixOf (c :: X') = true := by
              intro hc
              apply hm
              rw [ List.isPrefixOf_iff_prefix] at hc ⊢
              rw [← List.cons_append]
              exact hc.trans (List.prefix_append _ _)
            rw [if_neg hm, if_neg hm']
            have hb1 : (X' ++ pat).length ≤ g₁ := by
              simp only [List.length_append, List.length_cons] at h₁ ⊢
              omega
            have hb2 : X'.length ≤ g₂ := by
              simp only [List.length_cons] at h₂
              omega
            rw [replaceGo_append_pat_split hpat hov X' g₁ g₂ hb1 hb2,
              List.cons_append]
termination_by X _ _ => X.length
decreasing_by
  · simp only [List.length_drop, List.length_cons]
    omega
  · simp

/-- Python replace on a string ending with `.adoc.docx` always rewrites the
trailing occurrence: the result is the replacement of the stem followed by
`.docx`. -/
theorem pyReplace_append_adoc_docx (X : Path) :
    pyReplace (X ++ ADOC_DOCX) ADOC_DOCX DOCX =
      pyReplace X ADOC_DOCX DOCX ++ DOCX :=
  replaceGo_append_pat_split (by decide) adoc_docx_no_overlap X
    (X ++ ADOC_DOCX).length X.length (Nat.le_refl _) (Nat.le_refl _)

/-- Case analysis of a suffix of an append: it lies within the second part,
or it covers the whole second part and its remainder is a suffix of the
first. -/
theorem suffix_append_cases {u a b : List Char} (h : u <:+ a ++ b) :
    u <:+ b ∨ ∃ s, s ++ b = u ∧ s <:+ a := by
  obtain ⟨t, ht⟩ := h
  rw [List.append_eq_append_iff] at ht
  rcases ht with ⟨a', ha1, ha2⟩ | ⟨c', hc1, hc2⟩
  · exact Or.inr ⟨a', ha2.symm, ⟨t, ha1.symm⟩⟩
  · exact Or.inl ⟨c', hc2.symm⟩

/-- Either no replacement happened (the string is returned unchanged), or the
replacement text occurs somewhere in the output. -/
theorem replaceGo_eq_self_or_contains_rep (pat rep : Path) :
    ∀ (fuel : Nat) (s : Path),
      replaceGo pat rep fuel s = s ∨
        ∃ A B, replaceGo pat rep fuel s = A ++ (rep ++ B)
  | fuel, [] => by
    rw [replaceGo_nil]
    exact Or.inl rfl
  | 0, c :: s => Or.inl rfl
  | fuel + 1, c :: s => by
    rw [replaceGo_succ_cons]
    split
    · exact Or.inr ⟨[], replaceGo pat rep fuel ((c :: s).drop pat.length),
        by rw [List.nil_append]⟩
    · rcases replaceGo_eq_self_or_contains_rep pat rep fuel s with
        h | ⟨A, B, h⟩
      · exact Or.inl (by rw [h])
      · exact Or.inr ⟨c :: A, B, by rw [h, List.cons_append]⟩

/-- No nonempty suffix of `.docx` is a prefix of `.adoc`. -/
theorem docx_drop_prefix_adoc :
    ∀ i < 6, DOCX.drop i <+: ADOC → DOCX.drop i = [] := by
  decide

/-- Replacing `.adoc.docx` by `.docx` never creates a trailing `.adoc`: if
the input does not end with `.adoc`, neither does the output. -/
theorem not_adoc_suffix_replaceGo :
    ∀ (fuel : Nat) (X : Path), ¬ ADOC <:+ X →
      ¬ ADOC <:+ replaceGo ADOC_DOCX DOCX fuel X
  | fuel, [] => by
    rw [replaceGo_nil]
    intro _ hs
    have := List.suffix_nil.mp hs
    simp [ADOC] at this
  | 0, c :: s => fun hX => hX
  | fuel + 1, c :: s => by
    intro hX
    rw [replaceGo_succ_cons]
    split
    · intro hs
      have hXdrop : ¬ ADOC <:+ (c :: s).drop ADOC_DOCX.length := by
        intro h
        exact hX (h.trans (List.drop_suffix _ _))
      have hR := not_adoc_suffix_replaceGo fuel _ hXdrop
      rcases suffix_append_cases hs with h | ⟨t, ht1, ht2⟩
      · exact hR h
      · obtain ⟨w, hw⟩ := ht2
        have htd : t = DOCX.drop w.length := by
          rw [← hw, List.drop_left]
        have hwlen : w.length < 6 := by
          have hl := congrArg List.length hw
          simp only [List.length_append] at hl
          have h5 : DOCX.length = 5 := by decide
          omega
        have htp : t <+: ADOC := ⟨_, ht1⟩
        have ht0 : t = [] := by
          rw [htd]
          exact docx_drop_prefix_adoc w.length hwlen (htd ▸ htp)
        rw [ht0, List.nil_append] at ht1
        apply hR
        rw [ht1]
    · intro hs
      have hXtail : ¬ ADOC <:+ s := fun h =>
        hX (h.trans (List.suffix_cons c s))
      have hR := not_adoc_suffix_replaceGo fuel s hXtail
      rcases List.suffix_cons_iff.mp hs with h | h
      · rcases replaceGo_eq_self_or_contains_rep ADOC_DOCX DOCX fuel s with
          heq | ⟨A, B, heq⟩
        · rw [heq] at h
          apply hX
          rw [h]
        · have hlen := congrArg List.length h
          rw [heq] at hlen
          simp only [List.length_cons, List.length_append] at hlen
          have h5 : ADOC.length = 5 := by decide
          have h5' : DOCX.length = 5 := by decide
          omega
      · exact hR h

/-! ## Lemmas about `basename` / `dirname` / `joinPath` -/

theorem mem_basename_ne_slash {p : Path} {c : Char} (h : c ∈ basename p) :
    c ≠ '/' := by
  unfold basename at h
  have h1 : c ∈ p.reverse.takeWhile (fun c => c != '/') :=
    List.mem_reverse.mp h
  have h2 := List.mem_takeWhile_imp h1
  simpa using h2

theorem goodDir_dirname (p : Path) : GoodDir (dirname p) := by
  by_cases h : (splitHead p).any (fun c => c != '/') = true
  · rw [dirname, if_pos h]
    unfold GoodDir rstripSlash
    cases hl : (splitHead p).reverse.dropWhile (fun c => c == '/') with
    | nil => left; simp
    | cons c t =>
      left
      rw [List.getLast?_reverse]
      have hc : (c == '/') = false :=
        dropWhile_head_false (p := fun c => c == '/') hl
      simp only [List.head?_cons, ne_eq, Option.some.injEq]
      intro hce
      rw [hce] at hc
      simp at hc
  · rw [dirname, if_neg h]
    right
    intro c hc
    simp only [List.any_eq_true, not_exists, not_and] at h
    have := h c hc
    simpa using this

theorem basename_joinPath {d f : Path} (hd : GoodDir d) (hf : f ≠ [])
    (hf' : ∀ c ∈ f, c ≠ '/') : basename (joinPath d f) = f := by
  have hfs : ∀ a ∈ f.reverse, (a != '/') = true := by
    intro a ha
    simpa using hf' a (List.mem_reverse.mp ha)
  have hhead : ¬ f.head? = some '/' := by
    obtain ⟨c, t, rfl⟩ := List.exists_cons_of_ne_nil hf
    simp only [List.head?_cons, Option.some.injEq]
    exact hf' c (by simp)
  rw [joinPath, if_neg hhead]
  by_cases hcase : d = [] ∨ d.getLast? = some '/'
  · rw [if_pos hcase]
    rcases hcase with hnil | hlast
    · subst hnil
      rw [List.nil_append]
      unfold basename
      rw [takeWhile_eq_self_of_all hfs, List.reverse_reverse]
    · rcases hd with hne | hall
      · exact absurd hlast hne
      · unfold basename
        rw [List.reverse_append, takeWhile_append_of_all _ _ hfs,
          takeWhile_eq_nil_of_head (by rw [List.head?_reverse]; exact hlast)
            (by simp),
          List.append_nil, List.reverse_reverse]
  · rw [if_neg hcase]
    unfold basename
    rw [List.reverse_append, List.reverse_cons, List.append_assoc,
      takeWhile_append_of_all _ _ hfs, List.singleton_append,
      takeWhile_eq_nil_of_head (l := '/' :: d.reverse) rfl (by simp),
      List.append_nil, List.reverse_reverse]

theorem dirname_joinPath {d f : Path} (hd : GoodDir d) (hf : f ≠ [])
    (hf' : ∀ c ∈ f, c ≠ '/') : dirname (joinPath d f) = d := by
  have hfs : ∀ a ∈ f.reverse, (a != '/') = true := by
    intro a ha
    simpa using hf' a (List.mem_reverse.mp ha)
  have hhead : ¬ f.head? = some '/' := by
    obtain ⟨c, t, rfl⟩ := List.exists_cons_of_ne_nil hf
    simp only [List.head?_cons, Option.some.injEq]
    exact hf' c (by simp)
  rw [joinPath, if_neg hhead]
  by_cases hcase : d = [] ∨ d.getLast? = some '/'
  · rw [if_pos hcase]
    rcases hcase with hnil | hlast
    · subst hnil
      rw [List.nil_append]
      have hsh : splitHead f = [] := by
        unfold splitHead
        rw [dropWhile_eq_nil_of_all hfs]
        rfl
      rw [dirname, hsh]
      simp
    · rcases hd with hne | hall
      · exact absurd hlast hne
      · have hsh : splitHead (d ++ f) = d := by
          unfold splitHead
          rw [List.reverse_append, dropWhile_append_of_all _ _ hfs,
            dropWhile_eq_self_of_head (by rw [List.head?_reverse]; exact hlast)
              (by simp),
            List.reverse_reverse]
        have hany : ¬ d.any (fun c => c != '/') = true := by
          intro h
          obtain ⟨c, hc, hb⟩ := List.any_eq_true.mp h
          rw [hall c hc] at hb
          simp at hb
        simp only [dirname]
        rw [hsh, if_neg hany]
  · rw [if_neg hcase]
    push_neg at hcase
    obtain ⟨hd1, hd2⟩ := hcase
    have hc0 : ∃ c0, d.getLast? = some c0 := by
      cases hg : d.getLast? with
      | none => exact absurd (List.getLast?_eq_none_iff.mp hg) hd1
      | some c0 => exact ⟨c0, rfl⟩
    obtain ⟨c0, hc0⟩ := hc0
    have hc0d : c0 ∈ d := List.mem_of_mem_getLast? hc0
    have hc0ne : c0 ≠ '/' := by
      intro h
      rw [h] at hc0
      exact hd2 hc0
    have hsh : splitHead (d ++ '/' :: f) = d ++ ['/'] := by
      unfold splitHead
      rw [List.reverse_append, List.reverse_cons, List.append_assoc,
        dropWhile_append_of_all _ _ hfs, List.singleton_append,
        dropWhile_eq_self_of_head (l := '/' :: d.reverse) rfl (by simp),
        List.reverse_cons, List.reverse_reverse]
    have hany : (d ++ ['/']).any (fun c => c != '/') = true :=
      List.any_eq_true.mpr
        ⟨c0, List.mem_append_left _ hc0d, by simpa using hc0ne⟩
    simp only [dirname]
    rw [hsh, if_pos hany]
    unfold rstripSlash
    rw [List.reverse_append, List.reverse_singleton, List.singleton_append,
      List.dropWhile_cons, if_pos (by simp),
      dropWhile_eq_self_of_head (by rw [List.head?_reverse]; exact hc0)
        (by simpa using hc0ne),
      List.reverse_reverse]

/-- Key decomposition: on any path whose filename component ends with
`.adoc.docx`, `generate_new_filename` keeps the parent directory and replaces
`.adoc.docx` by `.docx` (every occurrence) in the filename component. -/
theorem generate_new_filename_parts {p : Path}
    (h : isCandidateName (basename p) = true) :
    dirname (generate_new_filename p) = dirname p ∧
    basename (generate_new_filename p) =
      pyReplace (basename p) ADOC_DOCX DOCX := by
  have hsuf : ADOC_DOCX <:+ basename p := List.isSuffixOf_iff_suffix.mp h
  have hbne : basename p ≠ [] := by
    intro h0
    rw [h0] at hsuf
    have := List.suffix_nil.mp hsuf
    simp [ADOC_DOCX] at this
  have hnew_ne : pyReplace (basename p) ADOC_DOCX DOCX ≠ [] :=
    pyReplace_ne_nil (by decide) hbne
  have hnew_slash : ∀ c ∈ pyReplace (basename p) ADOC_DOCX DOCX, c ≠ '/' := by
    intro c hc
    rcases mem_pyReplace hc with hm | hm
    · exact mem_basename_ne_slash hm
    · revert hm
      have : ∀ c ∈ DOCX, c ≠ '/' := by decide
      exact this c
  constructor
  · exact dirname_joinPath (goodDir_dirname p) hnew_ne hnew_slash
  · exact basename_joinPath (goodDir_dirname p) hnew_ne hnew_slash

/-! ## Lemmas about `traverse_loop` and `execute_loop` -/

theorem traverse_loop_append :
    ∀ (xs ys : List (Path × List Path)),
      traverse_loop (xs ++ ys) = traverse_loop xs ++ traverse_loop ys
  | [], _ => rfl
  | pair :: xs, ys => by
    obtain ⟨root, files⟩ := pair
    rw [List.cons_append]
    simp only [traverse_loop]
    rw [traverse_loop_append xs ys, List.append_assoc]

theorem execute_loop_append (orc : Path → Path → Option Path) :
    ∀ (xs ys : List Path) (fs : FS),
      execute_loop orc fs (xs ++ ys) =
        ⟨(execute_loop orc (execute_loop orc fs xs).fs ys).fs,
         (execute_loop orc fs xs).success_count +
           (execute_loop orc (execute_loop orc fs xs).fs ys).success_count,
         (execute_loop orc fs xs).error_count +
           (execute_loop orc (execute_loop orc fs xs).fs ys).error_count,
         (execute_loop orc fs xs).logs ++
           (execute_loop orc (execute_loop orc fs xs).fs ys).logs⟩
  | [], ys, fs => by simp [execute_loop]
  | old :: xs, ys, fs => by
    rw [List.cons_append]
    simp only [execute_loop]
    cases orc old (generate_new_filename old) with
    | none =>
      rw [execute_loop_append orc xs ys
        (applyRename fs old (generate_new_filename old))]
      simp [Nat.add_right_comm]
    | some e =>
      rw [execute_loop_append orc xs ys fs]
      simp [Nat.add_right_comm]

theorem execute_loop_count (orc : Path → Path → Option Path) :
    ∀ (files : List Path) (fs : FS),
      (execute_loop orc fs files).success_count +
        (execute_loop orc fs files).error_count = files.length
  | [], fs => rfl
  | old :: rest, fs => by
    simp only [execute_loop]
    cases orc old (generate_new_filename old) with
    | none =>
      have := execute_loop_count orc rest (applyRename fs old
        (generate_new_filename old))
      simp only [List.length_cons]
      omega
    | some e =>
      have := execute_loop_count orc rest fs
      simp only [List.length_cons]
      omega

/-! ## Suffix cancellation (for the idempotence analysis) -/

theorem suffix_cancel_right {a b c : Path} (h : a ++ c <:+ b ++ c) :
    a <:+ b := by
  rw [← List.reverse_prefix] at h ⊢
  rw [List.reverse_append, List.reverse_append] at h
  exact ( List.prefix_append_right_inj c.reverse).mp h

/-- Whenever the stem `X` does not end with `.adoc`, the name
`pyReplace (X ++ ".adoc.docx")` does not end with `.adoc.docx` — the trailing
occurrence is always replaced, and the replacement cannot create a new
trailing `.adoc`. -/
theorem pyReplace_not_candidate {X : Path} (hsuf : ¬ ADOC <:+ X) :
    isCandidateName (pyReplace (X ++ ADOC_DOCX) ADOC_DOCX DOCX) = false := by
  rw [pyReplace_append_adoc_docx X]
  apply eq_false_of_ne_true
  intro h
  have hs : ADOC_DOCX <:+ pyReplace X ADOC_DOCX DOCX ++ DOCX :=
    List.isSuffixOf_iff_suffix.mp h
  have hsplit : ADOC_DOCX = ADOC ++ DOCX := by decide
  rw [hsplit] at hs
  exact not_adoc_suffix_replaceGo X.length X hsuf (suffix_cancel_right hs)

/-! ## Which paths does the walk select? -/

theorem mem_fileNames_iff :
    ∀ (es : FSDir) {n : Path},
      n ∈ es.fileNames ↔ FSEntry.file n ∈ es.entries
  | .nil, n => by simp [FSDir.fileNames, FSDir.entries]
  | .cons (.file m) es, n => by
    simp only [FSDir.fileNames, FSDir.entries, List.mem_cons]
    rw [mem_fileNames_iff es]
    constructor
    · rintro (h | h)
      · left; rw [h]
      · right; exact h
    · rintro (h | h)
      · left; injection h
      · right; exact h
  | .cons (.dir d cs) es, n => by
    simp only [FSDir.fileNames, FSDir.entries, List.mem_cons]
    rw [mem_fileNames_iff es]
    constructor
    · exact Or.inr
    · rintro (h | h)
      · exact FSEntry.noConfusion h
      · exact h

theorem walkEntryPairs_dir (root d : Path) (cs : FSDir) :
    walkEntryPairs root (.dir d cs) = walkPairs (joinPath root d) cs := rfl

theorem traverse_walkSubPairs_mem :
    ∀ (es : FSDir) {root p : Path},
      p ∈ traverse_loop (walkSubPairs root es) ↔
        ∃ d cs, FSEntry.dir d cs ∈ es.entries ∧
          p ∈ traverse_loop (walkPairs (joinPath root d) cs)
  | .nil, root, p => by
    simp [walkSubPairs, traverse_loop, FSDir.entries]
  | .cons (.file m) es, root, p => by
    simp only [walkSubPairs, walkEntryPairs, List.nil_append, FSDir.entries,
      List.mem_cons]
    rw [traverse_walkSubPairs_mem es]
    constructor
    · rintro ⟨d, cs, hmem, hp⟩
      exact ⟨d, cs, Or.inr hmem, hp⟩
    · rintro ⟨d, cs, hmem | hmem, hp⟩
      · exact FSEntry.noConfusion hmem
      · exact ⟨d, cs, hmem, hp⟩
  | .cons (.dir d0 cs0) es, root, p => by
    simp only [walkSubPairs, walkEntryPairs_dir, FSDir.entries, List.mem_cons]
    rw [traverse_loop_append, List.mem_append,
      traverse_walkSubPairs_mem es]
    constructor
    · rintro (hp | ⟨d, cs, hmem, hp⟩)
      · exact ⟨d0, cs0, Or.inl rfl, hp⟩
      · exact ⟨d, cs, Or.inr hmem, hp⟩
    · rintro ⟨d, cs, hmem | hmem, hp⟩
      · injection hmem with h1 h2
        subst h1
        subst h2
        exact Or.inl hp
      · exact Or.inr ⟨d, cs, hmem, hp⟩

theorem sizeOf_lt_of_dir_mem :
    ∀ {es : FSDir} {d : Path} {cs : FSDir},
      FSEntry.dir d cs ∈ es.entries → sizeOf cs < sizeOf es
  | .nil, d, cs, h => by simp [FSDir.entries] at h
  | .cons e es, d, cs, h => by
    simp only [FSDir.entries, List.mem_cons] at h
    rcases h with h | h
    · rw [← h]
      simp only [FSDir.cons.sizeOf_spec, FSEntry.dir.sizeOf_spec]
      omega
    · have h1 := sizeOf_lt_of_dir_mem h
      have h2 : sizeOf es < sizeOf (FSDir.cons e es) := by
        simp only [FSDir.cons.sizeOf_spec]
        omega
      omega

theorem collect_of_isFileUnder {root : Path} {es : FSDir} {p n : Path}
    (hunder : IsFileUnder root es p n) (hc : isCandidateName n = true) :
    p ∈ traverse_loop (walkPairs root es) := by
  induction hunder with
  | here hmem =>
    simp only [walkPairs, traverse_loop]
    exact List.mem_append_left _ (List.mem_filterMap.mpr
      ⟨_, (mem_fileNames_iff _).mpr hmem, by rw [if_pos hc]⟩)
  | inside hmem _ ih =>
    simp only [walkPairs, traverse_loop]
    refine List.mem_append_right _ ?_
    exact (traverse_walkSubPairs_mem _).mpr ⟨_, _, hmem, ih hc⟩

theorem isFileUnder_of_collect :
    ∀ (es : FSDir) (root p : Path),
      p ∈ traverse_loop (walkPairs root es) →
        ∃ n, IsFileUnder root es p n ∧ isCandidateName n = true
  | es, root, p => by
    simp only [walkPairs, traverse_loop]
    intro hp
    rcases List.mem_append.mp hp with hp | hp
    · obtain ⟨n, hn, hsome⟩ := List.mem_filterMap.mp hp
      by_cases hc : isCandidateName n = true
      · rw [if_pos hc] at hsome
        injection hsome with hsome
        subst hsome
        exact ⟨n, IsFileUnder.here ((mem_fileNames_iff _).mp hn), hc⟩
      · rw [if_neg hc] at hsome
        exact Option.noConfusion hsome
    · obtain ⟨d, cs, hmem, hp'⟩ := (traverse_walkSubPairs_mem _).mp hp
      obtain ⟨n, hunder, hc⟩ :=
        isFileUnder_of_collect cs (joinPath root d) p hp'
      exact ⟨n, IsFileUnder.inside hmem hunder, hc⟩
termination_by es _ _ => sizeOf es
decreasing_by
  exact sizeOf_lt_of_dir_mem hmem

/-- Correctness of the walk-and-filter phase: a path is collected iff it is
the path of a regular file somewhere under the root whose name ends with
`.adoc.docx`. -/
theorem traverse_walkPairs_mem (es : FSDir) (root p : Path) :
    p ∈ traverse_loop (walkPairs root es) ↔
      ∃ n, IsFileUnder root es p n ∧ isCandidateName n = true :=
  ⟨isFileUnder_of_collect es root p,
    fun ⟨_, hunder, hc⟩ => collect_of_isFileUnder hunder hc⟩

/-! ## The claims -/

/-- Claim C1, counterexample.  On the path `a.adoc.docx.adoc.docx` — whose
filename component ends with `.adoc.docx` — the claim predicts the filename
obtained by replacing only the *first* occurrence of `.adoc.docx`, namely
`a.docx.adoc.docx`; the code's `str.replace` replaces *every* occurrence and
returns `a.docx.docx`. -/
theorem c1_first_occurrence_counterexample :
    isCandidateName (basename "a.adoc.docx.adoc.docx".data) = true ∧
    generate_new_filename "a.adoc.docx.adoc.docx".data = "a.docx.docx".data ∧
    joinPath (dirname "a.adoc.docx.adoc.docx".data)
      (replaceFirst ADOC_DOCX DOCX (basename "a.adoc.docx.adoc.docx".data)) =
        "a.docx.adoc.docx".data ∧
    generate_new_filename "a.adoc.docx.adoc.docx".data ≠
      joinPath (dirname "a.adoc.docx.adoc.docx".data)
        (replaceFirst ADOC_DOCX DOCX
          (basename "a.adoc.docx.adoc.docx".data)) := by
  decide

/-- Claim C1 (amended).  For every path whose filename component ends with
`.adoc.docx`, `generate_new_filename` returns a path in the same parent
directory whose filename is the old filename with *every* leftmost,
non-overlapping occurrence of the substring `.adoc.docx` replaced by `.docx`
(Python `str.replace` semantics: a naive substring replace on the filename
component only, not a strict trailing-suffix strip). -/
theorem c1_generate_new_filename_same_dir_replaced (p : Path)
    (h : isCandidateName (basename p) = true) :
    dirname (generate_new_filename p) = dirname p ∧
    basename (generate_new_filename p) =
      pyReplace (basename p) ADOC_DOCX DOCX :=
  generate_new_filename_parts h

theorem c1_generate_new_filename_same_dir_replaced_witness :
    isCandidateName (basename "d/x.adoc.docx".data) = true ∧
    (dirname (generate_new_filename "d/x.adoc.docx".data) =
        dirname "d/x.adoc.docx".data ∧
      basename (generate_new_filename "d/x.adoc.docx".data) =
        pyReplace (basename "d/x.adoc.docx".data) ADOC_DOCX DOCX) :=
  ⟨by decide,
    c1_generate_new_filename_same_dir_replaced "d/x.adoc.docx".data
      (by decide)⟩

/-- Claim C2, counterexample.  The filename `x.adoc.adoc.docx` ends with
`.adoc.docx`, yet the filename produced for it by `generate_new_filename` is
`x.adoc.docx`, which *still* ends with `.adoc.docx`: after one execute run a
second run's traversal selects the renamed file again, so the claimed
idempotence fails. -/
theorem c2_idempotence_counterexample :
    isCandidateName "x.adoc.adoc.docx".data = true ∧
    basename (generate_new_filename "x.adoc.adoc.docx".data) =
      "x.adoc.docx".data ∧
    isCandidateName
      (basename (generate_new_filename "x.adoc.adoc.docx".data)) = true := by
  decide

/-- Claim C2 (amended).  For every path whose filename component is
`X ++ ".adoc.docx"` where the stem `X` does not end with `.adoc`, the
filename produced by `generate_new_filename` no longer ends in `.adoc.docx`,
so such a file fails the `isCandidateName` filter and is not selected by a
second run's traversal.  (Only stems ending in `.adoc` — the counterexample's
shape — are excluded.) -/
theorem c2_renamed_name_not_candidate (p X : Path)
    (hb : basename p = X ++ ADOC_DOCX)
    (hsuf : ¬ ADOC <:+ X) :
    isCandidateName (basename (generate_new_filename p)) = false := by
  have hcand : isCandidateName (basename p) = true := by
    rw [hb]
    exact List.isSuffixOf_iff_suffix.mpr ⟨X, rfl⟩
  rw [(generate_new_filename_parts hcand).2, hb]
  exact pyReplace_not_candidate hsuf

theorem c2_renamed_name_not_candidate_witness :
    (basename "z.adoc.docx.adoc.docx".data =
        "z.adoc.docx".data ++ ADOC_DOCX ∧
      ¬ ADOC <:+ "z.adoc.docx".data) ∧
    isCandidateName
      (basename (generate_new_filename "z.adoc.docx.adoc.docx".data)) =
        false :=
  ⟨⟨by decide, by decide⟩,
    c2_renamed_name_not_candidate "z.adoc.docx.adoc.docx".data
      "z.adoc.docx".data (by decide) (by decide)⟩

/-- Claim C3.  For every directory tree, a path is in the candidate list
returned by an error-free `traverse_directory` iff it is the path of a
regular file (not a directory) somewhere under the root whose name ends with
the literal string `.adoc.docx`; files whose name does not end in
`.adoc.docx` are never selected, at any depth. -/
theorem c3_traverse_selects_exactly_matching_files (root : Path) (es : FSDir)
    (p : Path) :
    p ∈ (traverse_directory (walkOf root es)).1 ↔
      ∃ n, IsFileUnder root es p n ∧ isCandidateName n = true :=
  traverse_walkPairs_mem es root p

/-- Claim C4.  Preview mode performs no filesystem mutation: the filesystem
state is returned unchanged, the log contains exactly one `old -> new` line
per candidate (mapping each candidate to `generate_new_filename` of it), a
summary count of the candidates found, and no rename-outcome line. -/
theorem c4_preview_no_mutation (fs : FS) (files : List Path) :
    (preview_rename fs files).1 = fs ∧
    ((preview_rename fs files).2.filter isPreviewLine) =
      files.map (fun old => .previewLine old (generate_new_filename old)) ∧
    LogMsg.previewCount files.length ∈ (preview_rename fs files).2 ∧
    ∀ l ∈ (preview_rename fs files).2, isRenameLog l = false := by
  refine ⟨rfl, ?_, ?_, ?_⟩
  · simp only [preview_rename, List.filter_cons, List.filter_append]
    rw [List.filter_eq_self.mpr ?_]
    · simp [isPreviewLine]
    · intro l hl
      obtain ⟨o, _, rfl⟩ := List.mem_map.mp hl
      rfl
  · simp [preview_rename]
  · intro l hl
    simp only [preview_rename, List.mem_cons, List.mem_append,
      List.mem_map, List.mem_singleton] at hl
    rcases hl with rfl | rfl | ⟨o, ho, rfl⟩ | rfl | h
    · rfl
    · rfl
    · rfl
    · rfl
    · simp at h

/-- Claim C5.  In execute mode, a rename failure on one candidate is caught
locally: the run over `pre ++ old :: post` logs the failure with its cause
and path, counts exactly one extra failure for it, and still processes all
of `post` (every one of the remaining candidates is counted as a success or
a failure). -/
theorem c5_execute_failure_isolated (orc : Path → Path → Option Path)
    (fs : FS) (pre post : List Path) (old e : Path)
    (hfail : orc old (generate_new_filename old) = some e) :
    execute_loop orc fs (pre ++ old :: post) =
      ⟨(execute_loop orc (execute_loop orc fs pre).fs post).fs,
       (execute_loop orc fs pre).success_count +
         (execute_loop orc (execute_loop orc fs pre).fs post).success_count,
       (execute_loop orc fs pre).error_count + 1 +
         (execute_loop orc (execute_loop orc fs pre).fs post).error_count,
       (execute_loop orc fs pre).logs ++
         .renameFail old e ::
           (execute_loop orc (execute_loop orc fs pre).fs post).logs⟩ ∧
    (execute_loop orc (execute_loop orc fs pre).fs post).success_count +
      (execute_loop orc (execute_loop orc fs pre).fs post).error_count =
        post.length := by
  constructor
  · rw [execute_loop_append orc pre (old :: post) fs]
    simp only [execute_loop, hfail]
    simp [Nat.add_right_comm, Nat.add_assoc]
    omega
  · exact execute_loop_count orc post _

theorem c5_execute_failure_isolated_witness :
    ((fun (_ _ : Path) => some "boom".data) "b.adoc.docx".data
        (generate_new_filename "b.adoc.docx".data) = some "boom".data) ∧
    (execute_loop (fun _ _ => some "boom".data) []
        (["a.adoc.docx".data] ++ "b.adoc.docx".data :: ["c.adoc.docx".data]) =
      ⟨(execute_loop (fun _ _ => some "boom".data)
          (execute_loop (fun _ _ => some "boom".data) []
            ["a.adoc.docx".data]).fs ["c.adoc.docx".data]).fs,
       (execute_loop (fun _ _ => some "boom".data) []
          ["a.adoc.docx".data]).success_count +
         (execute_loop (fun _ _ => some "boom".data)
            (execute_loop (fun _ _ => some "boom".data) []
              ["a.adoc.docx".data]).fs
            ["c.adoc.docx".data]).success_count,
       (execute_loop (fun _ _ => some "boom".data) []
          ["a.adoc.docx".data]).error_count + 1 +
         (execute_loop (fun _ _ => some "boom".data)
            (execute_loop (fun _ _ => some "boom".data) []
              ["a.adoc.docx".data]).fs
            ["c.adoc.docx".data]).error_count,
       (execute_loop (fun _ _ => some "boom".data) []
          ["a.adoc.docx".data]).logs ++
         .renameFail "b.adoc.docx".data "boom".data ::
           (execute_loop (fun _ _ => some "boom".data)
              (execute_loop (fun _ _ => some "boom".data) []
                ["a.adoc.docx".data]).fs
              ["c.adoc.docx".data]).logs⟩ ∧
      (execute_loop (fun _ _ => some "boom".data)
          (execute_loop (fun _ _ => some "boom".data) []
            ["a.adoc.docx".data]).fs
          ["c.adoc.docx".data]).success_count +
        (execute_loop (fun _ _ => some "boom".data)
            (execute_loop (fun _ _ => some "boom".data) []
              ["a.adoc.docx".data]).fs
            ["c.adoc.docx".data]).error_count =
          (["c.adoc.docx".data] : List Path).length) :=
  ⟨rfl,
    c5_execute_failure_isolated (fun _ _ => some "boom".data) []
      ["a.adoc.docx".data] ["c.adoc.docx".data] "b.adoc.docx".data
      "boom".data rfl⟩

/-- Claim C6.  If the directory walk raises an error, `traverse_directory`
returns the empty candidate list together with a log of the cause — the
entries yielded before the error are discarded, never surfaced. -/
theorem c6_traverse_error_returns_empty (w : WalkResult) (e : Path)
    (herr : w.error = some e) :
    traverse_directory w = ([], [.traverseError e]) := by
  simp [traverse_directory, herr]

theorem c6_traverse_error_returns_empty_witness :
    (WalkResult.mk [("r".data, ["x.adoc.docx".data])]
        (some "boom".data)).error = some "boom".data ∧
    traverse_directory
        ⟨[("r".data, ["x.adoc.docx".data])], some "boom".data⟩ =
      ([], [.traverseError "boom".data]) ∧
    traverse_loop [("r".data, ["x.adoc.docx".data])] ≠ [] :=
  ⟨rfl,
    c6_traverse_error_returns_empty
      ⟨[("r".data, ["x.adoc.docx".data])], some "boom".data⟩
      "boom".data rfl,
    by decide⟩

/-- Claim C7.  If the root argument does not exist or is not a directory, the
run emits exactly one error line and terminates: the filesystem state is
unchanged and no candidate is processed. -/
theorem c7_invalid_root_terminates (env : Env) (d : Path) (preview : Bool)
    (fs : FS) (h : env.pathExists = false ∨ env.pathIsDir = false) :
    mainRun env d preview fs = (fs, [.errNoExist d]) ∨
    mainRun env d preview fs = (fs, [.errNotDir d]) := by
  by_cases he : env.pathExists = true
  · rcases h with h | h
    · rw [h] at he
      exact Bool.noConfusion he
    · right
      simp [mainRun, he, h]
  · left
    simp [mainRun, eq_false_of_ne_true he]

theorem c7_invalid_root_terminates_witness :
    ((Env.mk false true ⟨[], none⟩ (fun _ _ => none)).pathExists = false ∨
      (Env.mk false true ⟨[], none⟩ (fun _ _ => none)).pathIsDir = false) ∧
    (mainRun (Env.mk false true ⟨[], none⟩ (fun _ _ => none)) "r".data true
        ["f".data] =
      (["f".data], [.errNoExist "r".data]) ∨
    mainRun (Env.mk false true ⟨[], none⟩ (fun _ _ => none)) "r".data true
        ["f".data] =
      (["f".data], [.errNotDir "r".data])) :=
  ⟨Or.inl rfl,
    c7_invalid_root_terminates (Env.mk false true ⟨[], none⟩ (fun _ _ => none))
      "r".data true ["f".data] (Or.inl rfl)⟩

/-- Claim C8.  On the spec's worked example — a root containing exactly
`a/report.adoc.docx`, `b/notes.txt` and `c/summary.adoc.docx` — the
traversal selects exactly the two `.adoc.docx` files, `b/notes.txt` is not
selected, and preview mode reports exactly those two mappings (to
`a/report.docx` and `c/summary.docx`) with a count of 2, leaving the
filesystem state unchanged. -/
theorem c8_worked_example_preview :
    (traverse_directory (walkOf "/tmp/r".data exampleDir)).1 =
      ["/tmp/r/a/report.adoc.docx".data,
        "/tmp/r/c/summary.adoc.docx".data] ∧
    "/tmp/r/b/notes.txt".data ∉
      (traverse_directory (walkOf "/tmp/r".data exampleDir)).1 ∧
    preview_rename
        ["/tmp/r/a/report.adoc.docx".data, "/tmp/r/b/notes.txt".data,
          "/tmp/r/c/summary.adoc.docx".data]
        (traverse_directory (walkOf "/tmp/r".data exampleDir)).1 =
      (["/tmp/r/a/report.adoc.docx".data, "/tmp/r/b/notes.txt".data,
          "/tmp/r/c/summary.adoc.docx".data],
        [.previewHeader, .previewCount 2,
          .previewLine "/tmp/r/a/report.adoc.docx".data
            "/tmp/r/a/report.docx".data,
          .previewLine "/tmp/r/c/summary.adoc.docx".data
            "/tmp/r/c/summary.docx".data,
          .previewDone]) := by
  decide

/-- Claim C9.  When the traversal returns no candidates, `main` logs the
"no files found" message and returns before invoking either mode: the
filesystem state is unchanged and no preview summary count line is ever
emitted. -/
theorem c9_empty_candidates_early_return (env : Env) (d : Path)
    (preview : Bool) (fs : FS) (hex : env.pathExists = true)
    (hdir : env.pathIsDir = true)
    (hempty : (traverse_directory env.walk).1 = []) :
    mainRun env d preview fs =
      (fs, [.startDir d, .startTime] ++ (traverse_directory env.walk).2 ++
        [.noFilesFound]) ∧
    ∀ n, LogMsg.previewCount n ∉ (mainRun env d preview fs).2 := by
  have h1 : mainRun env d preview fs =
      (fs, [.startDir d, .startTime] ++ (traverse_directory env.walk).2 ++
        [.noFilesFound]) := by
    simp [mainRun, hex, hdir, hempty]
  refine ⟨h1, ?_⟩
  intro n
  rw [h1]
  cases herr : env.walk.error with
  | none => simp [traverse_directory, herr]
  | some e => simp [traverse_directory, herr]

theorem c9_empty_candidates_early_return_witness :
    ((Env.mk true true ⟨[("r".data, [])], none⟩
        (fun _ _ => none)).pathExists = true ∧
      (Env.mk true true ⟨[("r".data, [])], none⟩
        (fun _ _ => none)).pathIsDir = true ∧
      (traverse_directory (Env.mk true true ⟨[("r".data, [])], none⟩
        (fun _ _ => none)).walk).1 = []) ∧
    (mainRun (Env.mk true true ⟨[("r".data, [])], none⟩ (fun _ _ => none))
        "r".data true [] =
      ([], [.startDir "r".data, .startTime] ++
        (traverse_directory (Env.mk true true ⟨[("r".data, [])], none⟩
          (fun _ _ => none)).walk).2 ++ [.noFilesFound]) ∧
      ∀ n, LogMsg.previewCount n ∉
        (mainRun (Env.mk true true ⟨[("r".data, [])], none⟩
          (fun _ _ => none)) "r".data true []).2) :=
  ⟨⟨rfl, rfl, by decide⟩,
    c9_empty_candidates_early_return
      (Env.mk true true ⟨[("r".data, [])], none⟩ (fun _ _ => none))
      "r".data true [] rfl rfl (by decide)⟩

/-- Claim C10.  In execute mode over a candidate list of length `n`, every
candidate is counted exactly once as a success or a failure:
`success_count + error_count = n`. -/
theorem c10_success_plus_error_eq_length (orc : Path → Path → Option Path)
    (fs : FS) (files : List Path) :
    (execute_rename orc fs files).success_count +
      (execute_rename orc fs files).error_count = files.length := by
  simp only [execute_rename]
  exact execute_loop_count orc files fs

end RenameFiles
